import Mathlib

/-!
Verification of the DocuChat RAG pipeline (PDF chat application).

Text is modelled as `List Char` (JS strings), JS numbers as `ℚ`, and
fallible external calls (vector store, inference provider, database)
as explicit parameters / `Except` results.  Each section embeds one
source file's functions and proves the spec claims about them.
-/

namespace DocuChat

/-! ## Page mapper — `src/lib/analytics/analyzr.ts` (`approximatePagesForChunks`) -/

/-- Metadata produced by the chunker (`src/lib/pdf/chunkText.ts`, `ChunkMeta`).
The `id` field of the source is a freshly generated UUID string; UUIDs are
modelled as natural numbers drawn from a generator stream. -/
structure ChunkMeta where
  id : Nat
  content : List Char
  chunkIndex : Nat
  charStart : Nat
  charEnd : Nat
  deriving Repr, DecidableEq

/-- A chunk together with its approximated page (`ChunkWithPage`). -/
structure ChunkWithPage where
  meta : ChunkMeta
  page : Int
  deriving Repr, DecidableEq

/-- Embeds `approximatePagesForChunks`: `totalChars = max(fullText.length, 1)`,
`page = floor(charStart / totalChars * numPages) + 1`, then clamped by
`Math.min(Math.max(1, page), numPages)`. -/
def approximatePagesForChunks (fullTextLen : Nat) (numPages : Int)
    (chunksMeta : List ChunkMeta) : List ChunkWithPage :=
  let totalChars : Nat := max fullTextLen 1
  chunksMeta.map (fun c =>
    let page : Int := ⌊((c.charStart : ℚ) / (totalChars : ℚ)) * (numPages : ℚ)⌋ + 1
    { meta := c, page := min (max 1 page) numPages })

/-- C5: every fragment's derived page equals the clamped floor formula, and
satisfies `1 ≤ page ≤ numPages` (given a valid page range, `1 ≤ numPages`,
which the validator guarantees via `MIN_PAGES = 1`). -/
theorem C5_page_formula_and_bounds (fullTextLen : Nat) (numPages : Int)
    (ms : List ChunkMeta) (hp : 1 ≤ numPages) :
    ∀ c ∈ approximatePagesForChunks fullTextLen numPages ms,
      c.page =
        min (max 1 (⌊((c.meta.charStart : ℚ) / ((max fullTextLen 1 : Nat) : ℚ))
            * (numPages : ℚ)⌋ + 1)) numPages
      ∧ 1 ≤ c.page ∧ c.page ≤ numPages := by
  intro c hc
  simp only [approximatePagesForChunks, List.mem_map] at hc
  obtain ⟨m, _, rfl⟩ := hc
  refine ⟨rfl, ?_, ?_⟩
  · exact le_min (le_max_left _ _) hp
  · exact min_le_right _ _

/-- Witness for C5 at a concrete input: a 3-page document, 10 chars of text,
one fragment starting at char 4 gets page 2. -/
theorem C5_page_formula_and_bounds_witness :
    (1 : Int) ≤ 3 ∧
      ∀ c ∈ approximatePagesForChunks 10 3 [⟨0, [], 0, 4, 9⟩],
        c.page =
          min (max 1 (⌊((c.meta.charStart : ℚ) / ((max 10 1 : Nat) : ℚ))
              * ((3 : Int) : ℚ)⌋ + 1)) 3
        ∧ 1 ≤ c.page ∧ c.page ≤ 3 :=
  ⟨by decide, C5_page_formula_and_bounds 10 3 [⟨0, [], 0, 4, 9⟩] (by decide)⟩

/-! ## Input sanitisation — `src/app/api/chat/route.ts` (`sanitizeText`)

JS regexes are embedded by explicit character classes: `jsWs` is the
`\s` class (whitespace incl. line terminators, also used by `trim`),
`isCtrlRemoved` is the class `[\u0000-\u0008\u000B\u000C\u000E-\u001F]`
removed by the first `replaceAll`. -/

/-- The JavaScript `\s` character class (WhiteSpace + LineTerminator). -/
def jsWs (c : Char) : Bool :=
  (c.toNat = 0x9) || (c.toNat = 0xA) || (c.toNat = 0xB) || (c.toNat = 0xC) ||
  (c.toNat = 0xD) || (c.toNat = 0x20) || (c.toNat = 0xA0) || (c.toNat = 0x1680) ||
  (0x2000 ≤ c.toNat && c.toNat ≤ 0x200A) ||
  (c.toNat = 0x2028) || (c.toNat = 0x2029) || (c.toNat = 0x202F) ||
  (c.toNat = 0x205F) || (c.toNat = 0x3000) || (c.toNat = 0xFEFF)

/-- The control characters removed by `sanitizeText`'s first `replaceAll`:
`U+0000–U+0008`, `U+000B`, `U+000C`, `U+000E–U+001F`. -/
def isCtrlRemoved (c : Char) : Bool :=
  (c.toNat ≤ 0x8) || (c.toNat = 0xB) || (c.toNat = 0xC) ||
  (0xE ≤ c.toNat && c.toNat ≤ 0x1F)

/-- `replaceAll(/[...]+/g, "")` on a character class is a filter. -/
def removeCtrl (l : List Char) : List Char := l.filter (fun c => !isCtrlRemoved c)

/-- Helper for `collapseWs`: `insideRun` records whether the previous character
belonged to a whitespace run (whose single replacement space was already
emitted). -/
def collapseWsAux (insideRun : Bool) : List Char → List Char
  | [] => []
  | c :: rest =>
    if jsWs c then
      if insideRun then collapseWsAux true rest
      else ' ' :: collapseWsAux true rest
    else c :: collapseWsAux false rest

/-- `replaceAll(/\s+/g, " ")`: every maximal whitespace run becomes one space. -/
def collapseWs (l : List Char) : List Char := collapseWsAux false l

/-- JS `String.prototype.trimStart`. -/
def jsTrimStart (l : List Char) : List Char := l.dropWhile jsWs

/-- JS `String.prototype.trimEnd`. -/
def jsTrimEnd (l : List Char) : List Char := l.rdropWhile jsWs

/-- JS `String.prototype.trim`. -/
def jsTrim (l : List Char) : List Char := jsTrimStart (jsTrimEnd l)

/-- Embeds `sanitizeText(s, maxLen)` from `src/app/api/chat/route.ts`:
remove control chars, collapse whitespace runs to a single space, trim;
if still longer than `maxLen`, cut to `maxLen - 3`, trim the end and
append `"..."`. -/
def sanitizeText (s : List Char) (maxLen : Nat) : List Char :=
  if s = [] then []
  else
    let cleaned := jsTrim (collapseWs (removeCtrl s))
    if maxLen < cleaned.length then
      jsTrimEnd (cleaned.take (maxLen - 3)) ++ ['.', '.', '.']
    else cleaned

theorem mem_collapseWsAux :
    ∀ (l : List Char) (b : Bool), ∀ c ∈ collapseWsAux b l, c = ' ' ∨ c ∈ l := by
  intro l
  induction l with
  | nil => simp [collapseWsAux]
  | cons c rest ih =>
    intro b x hx
    by_cases h : jsWs c = true
    · have htail : x = ' ' ∨ x ∈ rest → x = ' ' ∨ x ∈ c :: rest := by
        rintro (hx' | hx')
        · exact Or.inl hx'
        · exact Or.inr (List.mem_cons_of_mem _ hx')
      cases b with
      | true =>
        simp only [collapseWsAux, h, if_true] at hx
        exact htail (ih true x hx)
      | false =>
        simp only [collapseWsAux, h, if_true, if_false] at hx
        rcases List.mem_cons.mp hx with hx | hx
        · exact Or.inl hx
        · exact htail (ih true x hx)
    · have h' : jsWs c = false := by simpa using h
      simp only [collapseWsAux, h', Bool.false_eq_true, if_false] at hx
      rcases List.mem_cons.mp hx with hx | hx
      · exact Or.inr (hx ▸ List.mem_cons_self _ _)
      · rcases ih false x hx with hx' | hx'
        · exact Or.inl hx'
        · exact Or.inr (List.mem_cons_of_mem _ hx')

theorem ws_mem_collapseWsAux :
    ∀ (l : List Char) (b : Bool), ∀ c ∈ collapseWsAux b l, jsWs c = true → c = ' ' := by
  intro l
  induction l with
  | nil => simp [collapseWsAux]
  | cons c rest ih =>
    intro b x hx hws
    by_cases h : jsWs c = true
    · cases b with
      | true =>
        simp only [collapseWsAux, h, if_true] at hx
        exact ih true x hx hws
      | false =>
        simp only [collapseWsAux, h, if_true, if_false] at hx
        rcases List.mem_cons.mp hx with hx | hx
        · exact hx
        · exact ih true x hx hws
    · have h' : jsWs c = false := by simpa using h
      simp only [collapseWsAux, h', Bool.false_eq_true, if_false] at hx
      rcases List.mem_cons.mp hx with hx | hx
      · exact absurd (hx ▸ hws) (by simp [h'])
      · exact ih false x hx hws

/-- Inside a run (`insideRun = true`), the first emitted character is never
whitespace: the run's leading whitespace is skipped. -/
theorem head_collapseWsAux_true :
    ∀ (l : List Char), ∀ y ∈ (collapseWsAux true l).head?, jsWs y = false := by
  intro l
  induction l with
  | nil => simp [collapseWsAux]
  | cons c rest ih =>
    intro y hy
    by_cases h : jsWs c = true
    · simp only [collapseWsAux, h, if_true] at hy
      exact ih y hy
    · have h' : jsWs c = false := by simpa using h
      simp only [collapseWsAux, h', Bool.false_eq_true, if_false,
        List.head?_cons, Option.mem_def, Option.some.injEq] at hy
      exact hy ▸ h'

/-- After collapsing, the result never has two adjacent whitespace characters. -/
theorem chain'_collapseWsAux :
    ∀ (l : List Char) (b : Bool),
      List.Chain' (fun a b => jsWs a = false ∨ jsWs b = false) (collapseWsAux b l) := by
  intro l
  induction l with
  | nil => intro b; simp [collapseWsAux]
  | cons c rest ih =>
    intro b
    by_cases h : jsWs c = true
    · cases b with
      | true => simpa only [collapseWsAux, h, if_true] using ih true
      | false =>
        simp only [collapseWsAux, h, if_true, if_false]
        exact List.chain'_cons'.mpr
          ⟨fun y hy => Or.inr (head_collapseWsAux_true rest y hy), ih true⟩
    · have h' : jsWs c = false := by simpa using h
      simp only [collapseWsAux, h', Bool.false_eq_true, if_false]
      exact List.chain'_cons'.mpr ⟨fun y _ => Or.inl h', ih false⟩

/-- C10: for every input and every `maxLen ≥ 3`, `sanitizeText` returns a
string of length at most `maxLen` containing none of the removed control
characters, in which every remaining whitespace character is a single space
and no two adjacent characters are both whitespace (whitespace runs are
collapsed). -/
theorem C10_sanitizeText_safety (s : List Char) (maxLen : Nat) (h3 : 3 ≤ maxLen) :
    (sanitizeText s maxLen).length ≤ maxLen
    ∧ (∀ c ∈ sanitizeText s maxLen, isCtrlRemoved c = false)
    ∧ (∀ c ∈ sanitizeText s maxLen, jsWs c = true → c = ' ')
    ∧ List.Chain' (fun a b => jsWs a = false ∨ jsWs b = false)
        (sanitizeText s maxLen) := by
  by_cases hs : s = []
  · simp [sanitizeText, hs]
  · have hrw : sanitizeText s maxLen =
        (if maxLen < (jsTrim (collapseWs (removeCtrl s))).length then
          jsTrimEnd ((jsTrim (collapseWs (removeCtrl s))).take (maxLen - 3))
            ++ ['.', '.', '.']
        else jsTrim (collapseWs (removeCtrl s))) := by
      simp [sanitizeText, hs]
    set cleaned := jsTrim (collapseWs (removeCtrl s)) with hcleaned
    have hsubC : cleaned.Sublist (collapseWs (removeCtrl s)) :=
      ((List.dropWhile_suffix jsWs).sublist).trans
        (List.rdropWhile_prefix jsWs (collapseWs (removeCtrl s))).sublist
    have hmemC : ∀ c ∈ cleaned, isCtrlRemoved c = false := by
      intro c hc
      rcases mem_collapseWsAux (removeCtrl s) false c (hsubC.mem hc) with hc' | hc'
      · subst hc'; decide
      · have := List.of_mem_filter hc'
        simpa using this
    have hwsC : ∀ c ∈ cleaned, jsWs c = true → c = ' ' := fun c hc =>
      ws_mem_collapseWsAux (removeCtrl s) false c (hsubC.mem hc)
    have hchainC : List.Chain' (fun a b => jsWs a = false ∨ jsWs b = false) cleaned :=
      List.Chain'.suffix
        ( List.Chain'.prefix (chain'_collapseWsAux (removeCtrl s) false)
          (List.rdropWhile_prefix jsWs (collapseWs (removeCtrl s))))
        (List.dropWhile_suffix jsWs)
    by_cases hlen : maxLen < cleaned.length
    · rw [hrw, if_pos hlen]
      set t := jsTrimEnd (cleaned.take (maxLen - 3)) with ht
      have htpre : t <+: cleaned :=
        (List.rdropWhile_prefix jsWs (cleaned.take (maxLen - 3))).trans
          (List.take_prefix _ _)
      have htlen : t.length ≤ maxLen - 3 := by
        have h1 : t.length ≤ (cleaned.take (maxLen - 3)).length :=
          (List.rdropWhile_prefix jsWs (cleaned.take (maxLen - 3))).sublist.length_le
        have h2 : (cleaned.take (maxLen - 3)).length ≤ maxLen - 3 := by
          simp [List.length_take]
        exact h1.trans h2
      refine ⟨?_, ?_, ?_, ?_⟩
      · have : t.length + 3 ≤ (maxLen - 3) + 3 := by omega
        simpa [Nat.sub_add_cancel h3] using this
      · intro c hc
        rcases List.mem_append.mp hc with hc | hc
        · exact hmemC c (htpre.sublist.mem hc)
        · have hc' : c = '.' := by simpa using hc
          subst hc'; decide
      · intro c hc
        rcases List.mem_append.mp hc with hc | hc
        · exact hwsC c (htpre.sublist.mem hc)
        · have hc' : c = '.' := by simpa using hc
          subst hc'; decide
      · refine List.chain'_append.mpr
          ⟨ List.Chain'.prefix hchainC htpre, ?_, ?_⟩
        · simp only [List.chain'_cons, List.chain'_singleton]
          exact ⟨Or.inl (by decide), Or.inl (by decide), trivial⟩
        · intro x _ y hy
          simp only [List.head?_cons, Option.mem_def, Option.some.injEq] at hy
          exact Or.inr (by subst hy; decide)
    · rw [hrw, if_neg hlen]
      exact ⟨Nat.le_of_not_lt hlen, hmemC, hwsC, hchainC⟩

/-- Witness for C10 at a concrete input: a string with a newline run and a
control character, budget 5. -/
theorem C10_sanitizeText_safety_witness :
    3 ≤ 5
    ∧ ((sanitizeText ['a', '\n', '\n', ' ', 'b'] 5).length ≤ 5
    ∧ (∀ c ∈ sanitizeText ['a', '\n', '\n', ' ', 'b'] 5, isCtrlRemoved c = false)
    ∧ (∀ c ∈ sanitizeText ['a', '\n', '\n', ' ', 'b'] 5, jsWs c = true → c = ' ')
    ∧ List.Chain' (fun a b => jsWs a = false ∨ jsWs b = false)
        (sanitizeText ['a', '\n', '\n', ' ', 'b'] 5)) :=
  ⟨by decide, C10_sanitizeText_safety ['a', '\n', '\n', ' ', 'b'] 5 (by decide)⟩

/-! ## Chunker — `src/lib/pdf/chunkText.ts` (`chunkText`)

The text splitter (`RecursiveCharacterTextSplitter` from `@langchain`)
is an external pure library; it is modelled as a function parameter
`split : List Char → Nat → Nat → List (List Char)` (text, chunkSize,
chunkOverlap).  `uuidv4()` is external randomness, modelled as a stream
`ids : Nat → Nat` consumed per chunk index. -/

/-- JS `text.indexOf(pat, start)`: the smallest `i ≥ start` at which `pat`
occurs in `text` (`none` when JS returns `-1`). -/
def indexOfFrom (text pat : List Char) (start : Nat) : Option Nat :=
  (List.range (text.length + 1)).find?
    (fun i => decide (start ≤ i) && decide ((text.drop i).take pat.length = pat))

/-- The offset-recovery loop of `chunkText`: `foundAt = text.indexOf(chunk,
cursor)`, `start = foundAt >= 0 ? foundAt : cursor`, `end = start +
chunk.length`, and the cursor advances to `end`. -/
def chunkMetasFrom (text : List Char) (ids : Nat → Nat) :
    Nat → Nat → List (List Char) → List ChunkMeta
  | _, _, [] => []
  | cursor, idx, c :: cs =>
    let start := (indexOfFrom text c cursor).getD cursor
    let e := start + c.length
    ⟨ids idx, c, idx, start, e⟩ :: chunkMetasFrom text ids e (idx + 1) cs

/-- Embeds `chunkText(text, chunkSize, chunkOverlap)`. -/
def chunkText (split : List Char → Nat → Nat → List (List Char))
    (ids : Nat → Nat) (text : List Char) (chunkSize chunkOverlap : Nat) :
    List ChunkMeta :=
  chunkMetasFrom text ids 0 0 (split text chunkSize chunkOverlap)

theorem indexOfFrom_some_ge {text pat : List Char} {start j : Nat}
    (h : indexOfFrom text pat start = some j) : start ≤ j := by
  have := List.find?_some h
  simp only [Bool.and_eq_true, decide_eq_true_eq] at this
  exact this.1

/-- Everything `chunkMetasFrom` returns, in one induction:
one meta per chunk, starts at or after the incoming cursor, end = start +
length, and each start is the `indexOf` hit or else the cursor. -/
theorem chunkMetasFrom_spec (text : List Char) (ids : Nat → Nat) :
    ∀ (cs : List (List Char)) (cursor idx : Nat),
      (chunkMetasFrom text ids cursor idx cs).length = cs.length
      ∧ (∀ m ∈ chunkMetasFrom text ids cursor idx cs, cursor ≤ m.charStart)
      ∧ (∀ m ∈ chunkMetasFrom text ids cursor idx cs,
          m.charEnd = m.charStart + m.content.length)
      ∧ (∀ m ∈ chunkMetasFrom text ids cursor idx cs, m.content ∈ cs)
      ∧ List.Chain' (fun a b => a.charStart ≤ b.charStart)
          (chunkMetasFrom text ids cursor idx cs)
      ∧ (∀ p ∈ (chunkMetasFrom text ids cursor idx cs).zip
            (cursor :: (chunkMetasFrom text ids cursor idx cs).map (·.charEnd)),
          p.1.charStart = (indexOfFrom text p.1.content p.2).getD p.2) := by
  intro cs
  induction cs with
  | nil => intro cursor idx; simp [chunkMetasFrom]
  | cons c cs ih =>
    intro cursor idx
    simp only [chunkMetasFrom]
    set start := (indexOfFrom text c cursor).getD cursor with hstart
    have hcstart : cursor ≤ start := by
      rcases hfound : indexOfFrom text c cursor with _ | j
      · simp [hstart, hfound]
      · simpa [hstart, hfound] using indexOfFrom_some_ge hfound
    obtain ⟨ihlen, ihge, ihend, ihmem, ihchain, ihzip⟩ := ih (start + c.length) (idx + 1)
    refine ⟨by simp [ihlen], ?_, ?_, ?_, ?_, ?_⟩
    · intro m hm
      rcases List.mem_cons.mp hm with hm | hm
      · subst hm; exact hcstart
      · exact hcstart.trans ((Nat.le_add_right _ _).trans (ihge m hm))
    · intro m hm
      rcases List.mem_cons.mp hm with hm | hm
      · subst hm; rfl
      · exact ihend m hm
    · intro m hm
      rcases List.mem_cons.mp hm with hm | hm
      · subst hm; exact List.mem_cons_self _ _
      · exact List.mem_cons_of_mem _ (ihmem m hm)
    · refine List.chain'_cons'.mpr ⟨?_, ihchain⟩
      intro y hy
      exact (Nat.le_add_right _ _).trans (ihge y (List.mem_of_mem_head? hy))
    · intro p hp
      rw [List.map_cons, List.zip_cons_cons] at hp
      rcases List.mem_cons.mp hp with hp | hp
      · subst hp; exact hstart
      · exact ihzip p hp

/-- C7: for every splitter output of nonempty fragments, the recovered
offsets are monotonically non-decreasing, satisfy `charEnd = charStart +
content.length` and `charStart < charEnd`, recovery never fails (one meta
per chunk), and each fragment's start is the forward `indexOf` hit or, when
no match exists at or after the cursor, the cursor position itself. -/
theorem C7_chunk_offset_invariants
    (split : List Char → Nat → Nat → List (List Char))
    (ids : Nat → Nat) (text : List Char) (chunkSize chunkOverlap : Nat)
    (hne : ∀ c ∈ split text chunkSize chunkOverlap, c ≠ []) :
    (chunkText split ids text chunkSize chunkOverlap).length
        = (split text chunkSize chunkOverlap).length
    ∧ List.Chain' (fun a b => a.charStart ≤ b.charStart)
        (chunkText split ids text chunkSize chunkOverlap)
    ∧ (∀ m ∈ chunkText split ids text chunkSize chunkOverlap,
        m.charEnd = m.charStart + m.content.length ∧ m.charStart < m.charEnd)
    ∧ (∀ p ∈ (chunkText split ids text chunkSize chunkOverlap).zip
          (0 :: (chunkText split ids text chunkSize chunkOverlap).map (·.charEnd)),
        (indexOfFrom text p.1.content p.2 = none → p.1.charStart = p.2)
        ∧ p.1.charStart = (indexOfFrom text p.1.content p.2).getD p.2) := by
  obtain ⟨hlen, _, hend, hmem, hchain, hzip⟩ :=
    chunkMetasFrom_spec text ids (split text chunkSize chunkOverlap) 0 0
  refine ⟨hlen, hchain, ?_, ?_⟩
  · intro m hm
    refine ⟨hend m hm, ?_⟩
    have hlen0 : 0 < m.content.length :=
      List.length_pos.mpr (hne m.content (hmem m hm))
    have := hend m hm
    omega
  · intro p hp
    refine ⟨?_, hzip p hp⟩
    intro hnone
    have := hzip p hp
    rwa [hnone, Option.getD_none] at this

/-- Witness for C7 at a concrete input: text "abcab" split into ["abc",
"cab"], with offsets recovered at 0 and 2. -/
theorem C7_chunk_offset_invariants_witness :
    (∀ c ∈ [['a', 'b', 'c'], ['c', 'a', 'b']], c ≠ ([] : List Char))
    ∧ ((chunkText (fun _ _ _ => [['a', 'b', 'c'], ['c', 'a', 'b']]) (fun _ => 0)
          ['a', 'b', 'c', 'a', 'b'] 3 1).length
        = [['a', 'b', 'c'], ['c', 'a', 'b']].length
    ∧ List.Chain' (fun a b => a.charStart ≤ b.charStart)
        (chunkText (fun _ _ _ => [['a', 'b', 'c'], ['c', 'a', 'b']]) (fun _ => 0)
          ['a', 'b', 'c', 'a', 'b'] 3 1)
    ∧ (∀ m ∈ chunkText (fun _ _ _ => [['a', 'b', 'c'], ['c', 'a', 'b']]) (fun _ => 0)
          ['a', 'b', 'c', 'a', 'b'] 3 1,
        m.charEnd = m.charStart + m.content.length ∧ m.charStart < m.charEnd)
    ∧ (∀ p ∈ (chunkText (fun _ _ _ => [['a', 'b', 'c'], ['c', 'a', 'b']]) (fun _ => 0)
          ['a', 'b', 'c', 'a', 'b'] 3 1).zip
          (0 :: (chunkText (fun _ _ _ => [['a', 'b', 'c'], ['c', 'a', 'b']]) (fun _ => 0)
            ['a', 'b', 'c', 'a', 'b'] 3 1).map (·.charEnd)),
        (indexOfFrom ['a', 'b', 'c', 'a', 'b'] p.1.content p.2 = none →
          p.1.charStart = p.2)
        ∧ p.1.charStart
            = (indexOfFrom ['a', 'b', 'c', 'a', 'b'] p.1.content p.2).getD p.2)) :=
  ⟨by decide,
    C7_chunk_offset_invariants (fun _ _ _ => [['a', 'b', 'c'], ['c', 'a', 'b']])
      (fun _ => 0) ['a', 'b', 'c', 'a', 'b'] 3 1 (by decide)⟩

/-- Projection of a chunk meta onto its deterministic fields (everything
except the freshly generated UUID). -/
def stripId (m : ChunkMeta) : List Char × Nat × Nat × Nat :=
  (m.content, m.chunkIndex, m.charStart, m.charEnd)

/-- C8 counterexample: two invocations of `chunkText` on the same text and
configuration draw fresh UUIDs (here: the generator returns `0` on the first
invocation and `1` on the second), so the produced `ChunkMeta` sequences are
not identical. -/
theorem C8_identical_output_counterexample :
    chunkText (fun t _ _ => [t]) (fun _ => 0) ['a'] 500 200
      ≠ chunkText (fun t _ _ => [t]) (fun _ => 1) ['a'] 500 200 := by
  decide

theorem chunkMetasFrom_map_stripId (text : List Char) (ids₁ ids₂ : Nat → Nat) :
    ∀ (cs : List (List Char)) (cursor idx : Nat),
      (chunkMetasFrom text ids₁ cursor idx cs).map stripId
        = (chunkMetasFrom text ids₂ cursor idx cs).map stripId := by
  intro cs
  induction cs with
  | nil => intro cursor idx; rfl
  | cons c cs ih =>
    intro cursor idx
    simp only [chunkMetasFrom, List.map_cons]
    exact congrArg _ (ih _ _)

/-- C8 amended: the chunker is deterministic up to the freshly generated
UUIDs — for the same text and configuration, any two invocations (any two
UUID streams) produce identical sequences of (content, index, charStart,
charEnd). -/
theorem C8_deterministic_up_to_ids
    (split : List Char → Nat → Nat → List (List Char))
    (ids₁ ids₂ : Nat → Nat) (text : List Char) (chunkSize chunkOverlap : Nat) :
    (chunkText split ids₁ text chunkSize chunkOverlap).map stripId
      = (chunkText split ids₂ text chunkSize chunkOverlap).map stripId :=
  chunkMetasFrom_map_stripId text ids₁ ids₂ _ 0 0

/-! ## Persistence — `src/lib/pdf/saveEmbeddings.ts` (`saveEmbeddings`)

The Supabase insert is modelled by an oracle `insertErr : List Row →
Option (List Char)` (`none` = success, `some msg` = DB error).  The
instrumented embedding returns, besides the `Except` outcome, the list of
insert batches actually attempted, so "no row persisted" is expressible. -/

/-- A row of the `pdf_chunks` save batch (`EmbeddingSaveRow`). -/
structure EmbeddingSaveRow where
  id : Nat
  document_id : Nat
  chunk_index : Nat
  page_number : Nat
  content : List Char
  embedding : List ℚ
  char_start : Option Nat
  char_end : Option Nat
  deriving Repr, DecidableEq

/-- `Array.from(new Set(xs))`: distinct values in first-occurrence order. -/
def uniqueFirst (l : List Nat) : List Nat :=
  l.foldl (fun acc d => if d ∈ acc then acc else acc ++ [d]) []

/-- `rows.slice(i, i + batchSize)` for `i = 0, batchSize, 2·batchSize, …`.
(The source default is `batchSize = 50`; a zero batch size would not
terminate in the source either and is mapped to no batches.) -/
def batchesOf (n : Nat) : List EmbeddingSaveRow → List (List EmbeddingSaveRow)
  | [] => []
  | x :: xs =>
    if _h : n = 0 then []
    else (x :: xs).take n :: batchesOf n ((x :: xs).drop n)
termination_by l => l.length
decreasing_by
  simp only [List.length_drop, List.length_cons]
  omega

/-- The insert loop: attempt batches in order, stop at the first DB error. -/
def insertLoop (insertErr : List EmbeddingSaveRow → Option (List Char)) :
    List (List EmbeddingSaveRow) →
      Except (List Char) Unit × List (List EmbeddingSaveRow)
  | [] => (Except.ok (), [])
  | b :: bs =>
    match insertErr b with
    | some e => (Except.error e, [b])
    | none =>
      let r := insertLoop insertErr bs
      (r.1, b :: r.2)

/-- Embeds `saveEmbeddings(rows, opts)`: empty input returns silently;
otherwise the embedding dimensions are checked for consistency and
positivity before any insert; then rows are inserted in batches. -/
def saveEmbeddings (insertErr : List EmbeddingSaveRow → Option (List Char))
    (rows : List EmbeddingSaveRow) (batchSize : Nat) :
    Except (List Char) Unit × List (List EmbeddingSaveRow) :=
  if rows = [] then (Except.ok (), [])
  else
    let dims := rows.map (·.embedding.length)
    let uniqueDims := uniqueFirst dims
    if uniqueDims.length ≠ 1 then
      (Except.error ['d', 'i', 'm', 's'], [])
    else if uniqueDims.headD 0 ≤ 0 then
      (Except.error ['z', 'e', 'r', 'o'], [])
    else
      insertLoop insertErr (batchesOf batchSize rows)

theorem mem_uniqueFirst_aux (l : List Nat) :
    ∀ (acc : List Nat) (x : Nat),
      (x ∈ l.foldl (fun acc d => if d ∈ acc then acc else acc ++ [d]) acc
        ↔ x ∈ acc ∨ x ∈ l) := by
  induction l with
  | nil => simp
  | cons d ds ih =>
    intro acc x
    simp only [List.foldl_cons]
    by_cases hd : d ∈ acc
    · rw [if_pos hd, ih]
      constructor
      · rintro (h | h)
        · exact Or.inl h
        · exact Or.inr (List.mem_cons_of_mem _ h)
      · rintro (h | h)
        · exact Or.inl h
        · rcases List.mem_cons.mp h with h | h
          · exact Or.inl (h ▸ hd)
          · exact Or.inr h
    · rw [if_neg hd, ih]
      simp only [List.mem_append, List.mem_singleton, List.mem_cons]
      tauto

theorem mem_uniqueFirst {l : List Nat} {x : Nat} : x ∈ uniqueFirst l ↔ x ∈ l := by
  rw [uniqueFirst, mem_uniqueFirst_aux]
  simp

/-- C6: for every non-empty batch whose rows do not all share one positive
embedding dimension (either two rows differ in dimension, or the common
dimension is zero), `saveEmbeddings` fails with an error and attempts no
insert at all. -/
theorem C6_mixed_dimensions_fail_before_insert
    (insertErr : List EmbeddingSaveRow → Option (List Char))
    (rows : List EmbeddingSaveRow) (batchSize : Nat) (hne : rows ≠ [])
    (hbad : (∃ r₁ ∈ rows, ∃ r₂ ∈ rows, r₁.embedding.length ≠ r₂.embedding.length)
      ∨ (∀ r ∈ rows, r.embedding.length = 0)) :
    (∃ e, (saveEmbeddings insertErr rows batchSize).1 = Except.error e)
    ∧ (saveEmbeddings insertErr rows batchSize).2 = [] := by
  rw [saveEmbeddings, if_neg hne]
  set dims := rows.map (·.embedding.length) with hdims
  by_cases hlen : (uniqueFirst dims).length ≠ 1
  · rw [if_pos hlen]
    exact ⟨⟨_, rfl⟩, rfl⟩
  · push_neg at hlen
    obtain ⟨d, hd⟩ := List.length_eq_one.mp hlen
    have hall : ∀ x ∈ dims, x = d := by
      intro x hx
      have : x ∈ uniqueFirst dims := mem_uniqueFirst.mpr hx
      rw [hd] at this
      simpa using this
    have hdzero : d = 0 := by
      rcases hbad with ⟨r₁, h₁, r₂, h₂, hne'⟩ | hzero
      · exact absurd
          ((hall _ (List.mem_map_of_mem _ h₁)).trans
            (hall _ (List.mem_map_of_mem _ h₂)).symm) hne'
      · have hdmem : d ∈ dims := by
          have : d ∈ uniqueFirst dims := by rw [hd]; simp
          exact mem_uniqueFirst.mp this
        obtain ⟨r, hr, hrd⟩ := List.mem_map.mp hdmem
        exact hrd ▸ hzero r hr
    have h1 : ¬ (uniqueFirst dims).length ≠ 1 := by simpa using hlen
    rw [if_neg h1, hd]
    simp only [List.headD_cons, hdzero]
    rw [if_pos (le_refl 0)]
    exact ⟨⟨_, rfl⟩, rfl⟩

/-- Witness for C6 at a concrete input: two rows with dimensions 1 and 2. -/
theorem C6_mixed_dimensions_fail_before_insert_witness :
    ([⟨0, 0, 0, 1, [], [1], none, none⟩,
      ⟨1, 0, 1, 1, [], [1, 2], none, none⟩] : List EmbeddingSaveRow) ≠ []
    ∧ ((∃ r₁ ∈ ([⟨0, 0, 0, 1, [], [1], none, none⟩,
          ⟨1, 0, 1, 1, [], [1, 2], none, none⟩] : List EmbeddingSaveRow),
        ∃ r₂ ∈ ([⟨0, 0, 0, 1, [], [1], none, none⟩,
          ⟨1, 0, 1, 1, [], [1, 2], none, none⟩] : List EmbeddingSaveRow),
          r₁.embedding.length ≠ r₂.embedding.length)
      ∨ (∀ r ∈ ([⟨0, 0, 0, 1, [], [1], none, none⟩,
          ⟨1, 0, 1, 1, [], [1, 2], none, none⟩] : List EmbeddingSaveRow),
          r.embedding.length = 0))
    ∧ ((∃ e, (saveEmbeddings (fun _ => none)
        [⟨0, 0, 0, 1, [], [1], none, none⟩,
         ⟨1, 0, 1, 1, [], [1, 2], none, none⟩] 50).1 = Except.error e)
      ∧ (saveEmbeddings (fun _ => none)
        [⟨0, 0, 0, 1, [], [1], none, none⟩,
         ⟨1, 0, 1, 1, [], [1, 2], none, none⟩] 50).2 = []) :=
  ⟨by decide, by decide,
    C6_mixed_dimensions_fail_before_insert (fun _ => none) _ 50 (by decide) (by decide)⟩

/-! ## Retrieval engine — `src/app/api/chat/route.ts` (`retrieveChunks`)

Similarity scores come over the wire as number, string or null
(`ChunkFromDb.similarity`); `parseFloat` is an external JS builtin and is
modelled by a parameter `parse : List Char → Option ℚ` (`none` = `NaN`).
The two vector-store calls are request-time data: `raw1` is the strict
query's (successful) result, `fallback` is `none` when the fallback call
fails and `some raw2` when it returns rows.  The outcome records whether
the fallback query was issued. -/

/-- Wire value of a similarity score. -/
inductive SimWire
  | num (q : ℚ)
  | str (s : List Char)
  | null
  deriving Repr, DecidableEq

/-- A raw result row from the `match_chunks` RPC (`ChunkFromDb`). -/
structure ChunkFromDb where
  id : Nat
  content : Option (List Char)
  page_number : Option Int
  similarity : SimWire
  deriving Repr, DecidableEq

/-- A normalised chunk (`Chunk`). -/
structure Chunk where
  id : Nat
  content : List Char
  page_number : Int
  similarity : ℚ
  deriving Repr, DecidableEq

/-- The similarity coercion of `normalizeChunks`: parse strings (`NaN` → 0
via the `Number.isFinite` guard), keep numbers, `null` → 0. -/
def normSim (parse : List Char → Option ℚ) : SimWire → ℚ
  | SimWire.num q => q
  | SimWire.str s => (parse s).getD 0
  | SimWire.null => 0

/-- Embeds `normalizeChunks`. -/
def normalizeChunks (parse : List Char → Option ℚ) (rows : List ChunkFromDb) :
    List Chunk :=
  rows.map (fun r =>
    { id := r.id
      content := r.content.getD []
      page_number := r.page_number.getD 0
      similarity := normSim parse r.similarity })

/-- `chunks.length ? Math.max(...chunks.map(c => c.similarity)) : 0`. -/
def topSimilarity (l : List Chunk) : ℚ := ((l.map (·.similarity)).max?).getD 0

/-- One step of the merge loop: `const existing = map.get(c.id); if
(!existing || c.similarity > existing.similarity) map.set(c.id, c)` — a JS
`Map` keeps the original insertion position on overwrite. -/
def upsertChunk (m : List Chunk) (c : Chunk) : List Chunk :=
  match m.find? (fun e => e.id == c.id) with
  | none => m ++ [c]
  | some e =>
    if e.similarity < c.similarity then
      m.map (fun x => if x.id == c.id then c else x)
    else m

/-- The whole merge: fold the concatenated strict and fallback results into
an insertion-ordered id-keyed map. -/
def mergeChunks (l : List Chunk) : List Chunk := l.foldl upsertChunk []

/-- `.sort((a, b) => b.similarity - a.similarity)` — a stable descending
sort by similarity. -/
def sortBySimDesc (l : List Chunk) : List Chunk :=
  l.mergeSort (fun a b => decide (b.similarity ≤ a.similarity))

/-- Configured thresholds (defaults from `route.ts`). -/
def MIN_SIMILARITY : ℚ := 35 / 100

/-- Final merge cap default. -/
def MATCH_COUNT_FINAL : Nat := 12

/-- Result of `retrieveChunks` plus whether the fallback RPC was issued. -/
structure RetrievalOutcome where
  chunks : List Chunk
  fallbackIssued : Bool
  deriving Repr, DecidableEq

/-- Embeds the adaptive part of `retrieveChunks` (steps 2–6; the embedding
call and strict RPC success are premises, their payload is `raw1`). -/
def retrieveChunksCore (parse : List Char → Option ℚ) (minSim : ℚ) (cap : Nat)
    (raw1 : List ChunkFromDb) (fallback : Option (List ChunkFromDb)) :
    RetrievalOutcome :=
  let chunks1 := normalizeChunks parse raw1
  let topSim1 := topSimilarity chunks1
  if minSim ≤ topSim1 then ⟨chunks1, false⟩
  else
    match fallback with
    | none => ⟨chunks1, true⟩
    | some raw2 =>
      let chunks2 := normalizeChunks parse raw2
      let merged := mergeChunks (chunks1 ++ chunks2)
      ⟨(sortBySimDesc merged).take cap, true⟩

/-- `retrieveChunks` at the configured defaults. -/
def retrieveChunks (parse : List Char → Option ℚ) (raw1 : List ChunkFromDb)
    (fallback : Option (List ChunkFromDb)) : RetrievalOutcome :=
  retrieveChunksCore parse MIN_SIMILARITY MATCH_COUNT_FINAL raw1 fallback

theorem upsert_map_id_nodup {m : List Chunk} (c : Chunk)
    (h : (m.map (·.id)).Nodup) : ((upsertChunk m c).map (·.id)).Nodup := by
  unfold upsertChunk
  split
  · rename_i hfind
    have hne : ∀ e ∈ m, e.id ≠ c.id := by
      intro e he
      have := List.find?_eq_none.mp hfind e he
      simpa using this
    rw [List.map_append]
    refine List.Nodup.append h (by simp) ?_
    intro a ha hb
    simp only [List.map_cons, List.map_nil, List.mem_singleton] at hb
    obtain ⟨e, he, rfl⟩ := List.mem_map.mp ha
    exact hne e he hb
  · rename_i e hfind
    split
    · have hmap : (m.map (fun x => if x.id == c.id then c else x)).map (·.id)
          = m.map (·.id) := by
        rw [List.map_map]
        apply List.map_congr_left
        intro x _
        by_cases hid : x.id = c.id
        · simp [hid]
        · simp [hid]
      rw [hmap]
      exact h
    · exact h

theorem upsert_mem {m : List Chunk} {c : Chunk} :
    ∀ x ∈ upsertChunk m c, x ∈ m ∨ x = c := by
  unfold upsertChunk
  split
  · intro x hx
    rcases List.mem_append.mp hx with hx | hx
    · exact Or.inl hx
    · exact Or.inr (by simpa using hx)
  · split
    · intro x hx
      obtain ⟨y, hy, rfl⟩ := List.mem_map.mp hx
      by_cases hid : y.id = c.id
      · exact Or.inr (by simp [hid])
      · exact Or.inl (by simpa [hid] using hy)
    · intro x hx
      exact Or.inl hx

theorem upsert_dominates_old {m : List Chunk} {c : Chunk}
    (hnd : (m.map (·.id)).Nodup) :
    ∀ d ∈ m, ∃ x ∈ upsertChunk m c, x.id = d.id ∧ d.similarity ≤ x.similarity := by
  unfold upsertChunk
  split
  · intro d hd
    exact ⟨d, List.mem_append_left _ hd, rfl, le_refl _⟩
  · rename_i e hfind
    have heid : e.id = c.id := by simpa using List.find?_some hfind
    have hem : e ∈ m := List.mem_of_find?_eq_some hfind
    split
    · rename_i hlt
      intro d hd
      by_cases hdid : d.id = c.id
      · have hde : d = e :=
          List.inj_on_of_nodup_map hnd hd hem (by rw [hdid, heid])
        exact ⟨c, List.mem_map.mpr ⟨e, hem, by simp [heid]⟩, hdid.symm,
          by rw [hde]; exact le_of_lt hlt⟩
      · exact ⟨d, List.mem_map.mpr ⟨d, hd, by simp [hdid]⟩, rfl, le_refl _⟩
    · intro d hd
      exact ⟨d, hd, rfl, le_refl _⟩

theorem upsert_dominates_new {m : List Chunk} {c : Chunk} :
    ∃ x ∈ upsertChunk m c, x.id = c.id ∧ c.similarity ≤ x.similarity := by
  unfold upsertChunk
  split
  · exact ⟨c, List.mem_append_right _ (by simp), rfl, le_refl _⟩
  · rename_i e hfind
    have heid : e.id = c.id := by simpa using List.find?_some hfind
    have hem : e ∈ m := List.mem_of_find?_eq_some hfind
    split
    · exact ⟨c, List.mem_map.mpr ⟨e, hem, by simp [heid]⟩, rfl, le_refl _⟩
    · rename_i hlt
      exact ⟨e, hem, heid, le_of_not_lt hlt⟩

/-- The complete invariant of the merge fold: distinct ids, provenance,
and each surviving entry dominating every same-id entry seen. -/
theorem foldl_upsert_spec :
    ∀ (l acc : List Chunk), (acc.map (·.id)).Nodup →
      ((l.foldl upsertChunk acc).map (·.id)).Nodup
      ∧ (∀ x ∈ l.foldl upsertChunk acc, x ∈ acc ∨ x ∈ l)
      ∧ (∀ d ∈ acc, ∃ x ∈ l.foldl upsertChunk acc,
          x.id = d.id ∧ d.similarity ≤ x.similarity)
      ∧ (∀ d ∈ l, ∃ x ∈ l.foldl upsertChunk acc,
          x.id = d.id ∧ d.similarity ≤ x.similarity) := by
  intro l
  induction l with
  | nil =>
    intro acc h
    exact ⟨h, fun x hx => Or.inl hx,
      fun d hd => ⟨d, hd, rfl, le_refl _⟩, by simp⟩
  | cons c cs ih =>
    intro acc h
    simp only [List.foldl_cons]
    have h' := upsert_map_id_nodup c h
    obtain ⟨ih1, ih2, ih3, ih4⟩ := ih (upsertChunk acc c) h'
    refine ⟨ih1, ?_, ?_, ?_⟩
    · intro x hx
      rcases ih2 x hx with hx' | hx'
      · rcases upsert_mem x hx' with h'' | h''
        · exact Or.inl h''
        · exact Or.inr (h'' ▸ List.mem_cons_self _ _)
      · exact Or.inr (List.mem_cons_of_mem _ hx')
    · intro d hd
      obtain ⟨x₁, hx₁, hid₁, hle₁⟩ := upsert_dominates_old h d hd (c := c)
      obtain ⟨x₂, hx₂, hid₂, hle₂⟩ := ih3 x₁ hx₁
      exact ⟨x₂, hx₂, hid₂.trans hid₁, hle₁.trans hle₂⟩
    · intro d hd
      rcases List.mem_cons.mp hd with hd' | hd'
      · subst hd'
        obtain ⟨x₁, hx₁, hid₁, hle₁⟩ := upsert_dominates_new (m := acc) (c := d)
        obtain ⟨x₂, hx₂, hid₂, hle₂⟩ := ih3 x₁ hx₁
        exact ⟨x₂, hx₂, hid₂.trans hid₁, hle₁.trans hle₂⟩
      · exact ih4 d hd'

/-- C1: the adaptive two-tier retrieval.  (i) When the strict tier's top
similarity reaches the acceptance threshold, the strict results are returned
and no fallback query is issued.  (ii) When it does not and the fallback
call fails, the strict results are returned unchanged.  (iii) Otherwise the
result is the merge-by-id (higher similarity wins), sorted by similarity
descending and truncated to the final cap: it has at most 12 entries,
is sorted descending, has pairwise-distinct fragment ids, every entry comes
from the strict-or-fallback pool and dominates every same-id pool entry,
and every pool id survives into the merged map. -/
theorem C1_adaptive_two_tier (parse : List Char → Option ℚ)
    (raw1 : List ChunkFromDb) (fallback : Option (List ChunkFromDb)) :
    (MIN_SIMILARITY ≤ topSimilarity (normalizeChunks parse raw1) →
      retrieveChunks parse raw1 fallback
        = ⟨normalizeChunks parse raw1, false⟩)
    ∧ (topSimilarity (normalizeChunks parse raw1) < MIN_SIMILARITY →
        fallback = none →
      retrieveChunks parse raw1 fallback
        = ⟨normalizeChunks parse raw1, true⟩)
    ∧ (∀ raw2, topSimilarity (normalizeChunks parse raw1) < MIN_SIMILARITY →
        fallback = some raw2 →
      retrieveChunks parse raw1 fallback
        = ⟨(sortBySimDesc (mergeChunks (normalizeChunks parse raw1
              ++ normalizeChunks parse raw2))).take MATCH_COUNT_FINAL, true⟩
      ∧ (retrieveChunks parse raw1 fallback).chunks.length ≤ MATCH_COUNT_FINAL
      ∧ List.Pairwise (fun a b => b.similarity ≤ a.similarity)
          (retrieveChunks parse raw1 fallback).chunks
      ∧ ((retrieveChunks parse raw1 fallback).chunks.map (·.id)).Nodup
      ∧ (∀ x ∈ (retrieveChunks parse raw1 fallback).chunks,
          x ∈ normalizeChunks parse raw1 ++ normalizeChunks parse raw2
          ∧ ∀ d ∈ normalizeChunks parse raw1 ++ normalizeChunks parse raw2,
              d.id = x.id → d.similarity ≤ x.similarity)
      ∧ (∀ d ∈ normalizeChunks parse raw1 ++ normalizeChunks parse raw2,
          ∃ x ∈ mergeChunks (normalizeChunks parse raw1
              ++ normalizeChunks parse raw2),
            x.id = d.id ∧ d.similarity ≤ x.similarity)) := by
  refine ⟨?_, ?_, ?_⟩
  · intro h
    simp only [retrieveChunks, retrieveChunksCore]
    rw [if_pos h]
  · intro h hf
    subst hf
    simp only [retrieveChunks, retrieveChunksCore]
    rw [if_neg (not_le.mpr h)]
  · intro raw2 h hf
    subst hf
    have hR : retrieveChunks parse raw1 (some raw2)
        = ⟨(sortBySimDesc (mergeChunks (normalizeChunks parse raw1
              ++ normalizeChunks parse raw2))).take MATCH_COUNT_FINAL, true⟩ := by
      simp only [retrieveChunks, retrieveChunksCore]
      rw [if_neg (not_le.mpr h)]
    set pool := normalizeChunks parse raw1 ++ normalizeChunks parse raw2 with hpool
    obtain ⟨hnd, hmem, _, hdom⟩ := foldl_upsert_spec pool [] (by simp)
    have hmergedef : mergeChunks pool = pool.foldl upsertChunk [] := rfl
    rw [← hmergedef] at hnd hmem hdom
    have htrans : ∀ (a b c : Chunk),
        (fun a b => decide (b.similarity ≤ a.similarity)) a b = true →
        (fun a b => decide (b.similarity ≤ a.similarity)) b c = true →
        (fun a b => decide (b.similarity ≤ a.similarity)) a c = true := by
      intro a b c hab hbc
      simp only [decide_eq_true_eq] at hab hbc ⊢
      exact hbc.trans hab
    have htotal : ∀ (a b : Chunk),
        ((fun a b => decide (b.similarity ≤ a.similarity)) a b
          || (fun a b => decide (b.similarity ≤ a.similarity)) b a) = true := by
      intro a b
      rcases le_total a.similarity b.similarity with h' | h' <;> simp [h']
    have hsorted := List.sorted_mergeSort htrans htotal (mergeChunks pool)
    have hsortperm := List.mergeSort_perm (mergeChunks pool)
      (fun a b => decide (b.similarity ≤ a.similarity))
    refine ⟨hR, ?_, ?_, ?_, ?_, hdom⟩
    · rw [hR]
      exact List.length_take_le _ _
    · rw [hR]
      refine List.Pairwise.sublist (List.take_sublist _ _) ?_
      exact hsorted.imp (fun hd => by simpa using hd)
    · rw [hR]
      refine List.Nodup.sublist (List.Sublist.map _ (List.take_sublist _ _)) ?_
      exact (hsortperm.map (·.id)).nodup_iff.mpr hnd
    · rw [hR]
      intro x hx
      have hxm : x ∈ mergeChunks pool := by
        have := (List.take_sublist MATCH_COUNT_FINAL _).mem hx
        rwa [sortBySimDesc, List.mem_mergeSort] at this
      have hxpool : x ∈ pool := by
        rcases hmem x hxm with h' | h'
        · cases h'
        · exact h'
      refine ⟨hxpool, ?_⟩
      intro d hd hid
      obtain ⟨y, hy, hyid, hyle⟩ := hdom d hd
      have hxy : x = y :=
        List.inj_on_of_nodup_map hnd hxm hy (hyid.trans hid).symm
      rw [hxy]
      exact hyle

/-- Witness for C1 at a concrete input: one strict row whose similarity
meets the 0.35 acceptance threshold exactly, so the strict results are
returned and no fallback is issued. -/
theorem C1_adaptive_two_tier_witness :
    MIN_SIMILARITY ≤ topSimilarity (normalizeChunks (fun _ => none)
      [⟨1, none, none, SimWire.num (35 / 100)⟩])
    ∧ retrieveChunks (fun _ => none)
        [⟨1, none, none, SimWire.num (35 / 100)⟩] none
      = ⟨normalizeChunks (fun _ => none) [⟨1, none, none, SimWire.num (35 / 100)⟩],
          false⟩ :=
  ⟨by simp [MIN_SIMILARITY, topSimilarity, normalizeChunks, normSim],
    (C1_adaptive_two_tier (fun _ => none)
      [⟨1, none, none, SimWire.num (35 / 100)⟩] none).1
      (by simp [MIN_SIMILARITY, topSimilarity, normalizeChunks, normSim])⟩

/-! ## Query endpoint gate and stream — `src/app/api/chat/route.ts` (`POST`)

`JSON.stringify` is an external builtin, modelled as a serializer
parameter.  The LLM provider's output is request-time data: `some chunks`
is the relayed token chunks, `none` is a mid-stream failure. -/

/-- A source entry sent to the frontend (page, similarity, excerpt). -/
structure SourceEntry where
  page : Int
  similarity : ℚ
  excerpt : List Char
  deriving Repr, DecidableEq

/-- `Number(c.similarity.toFixed(4))`: round to 4 decimal places, ties
toward the larger value (ECMAScript `toFixed` picks the larger candidate). -/
def round4 (q : ℚ) : ℚ := (⌊q * 10000 + 1 / 2⌋ : ℚ) / 10000

/-- One entry of the `sources` construction of `POST` (route.ts lines
252–259): similarity rounded to 4 decimals, excerpt of more than 200
characters cut to 200 plus an ellipsis. -/
def mkSource (c : Chunk) : SourceEntry :=
  { page := c.page_number
    similarity := round4 c.similarity
    excerpt :=
      if 200 < c.content.length then c.content.take 200 ++ ['.', '.', '.']
      else c.content }

/-- The full `sources` list sent to the frontend. -/
def mkSources (chunks : List Chunk) : List SourceEntry := chunks.map mkSource

/-- The literal `"INSUFFICIENT_CONTEXT"` answer. -/
def INSUFFICIENT_CONTEXT : List Char :=
  ['I', 'N', 'S', 'U', 'F', 'F', 'I', 'C', 'I', 'E', 'N', 'T', '_',
   'C', 'O', 'N', 'T', 'E', 'X', 'T']

/-- Reason codes of the insufficient-context response. -/
inductive GateReason
  | no_chunks_found
  | low_similarity
  deriving Repr, DecidableEq

/-- Outcome of the gate stage of `POST`: a non-streamed JSON response or
entry into streaming. -/
inductive PostOutcome
  | insufficient (answer : List Char) (reason : GateReason)
      (topSimilarity : ℚ) (sources : List SourceEntry) (status : Nat)
  | streamed (sources : List SourceEntry)
  deriving Repr, DecidableEq

/-- Embeds the gate of `POST` (route.ts lines 252–281).  The request's
`allowUngrounded` field is taken as a parameter to show how the handler
treats it: the destructuring `const { messages, sessionId, role } = ...`
never reads it, so the gate below does not depend on it. -/
def postGate (_allowUngrounded : Bool) (chunks : List Chunk) : PostOutcome :=
  let sources := mkSources chunks
  let topSim := topSimilarity chunks
  if chunks = [] ∨ topSim < MIN_SIMILARITY then
    PostOutcome.insufficient INSUFFICIENT_CONTEXT
      (if chunks = [] then GateReason.no_chunks_found else GateReason.low_similarity)
      topSim sources 200
  else
    PostOutcome.streamed sources

/-- C2 (code_bug evaluation): the failing input — a caller that explicitly
opts into ungrounded answering (`allowUngrounded = true`) while retrieval
returns no fragments — still gets the non-streamed `INSUFFICIENT_CONTEXT`
short-circuit: the opt-out is ignored, streaming is never entered, contrary
to the claim's bypass clause. -/
theorem C2_allowUngrounded_is_ignored :
    postGate true []
      = PostOutcome.insufficient INSUFFICIENT_CONTEXT
          GateReason.no_chunks_found 0 [] 200
    ∧ ∀ chunks, postGate true chunks = postGate false chunks :=
  ⟨rfl, fun _ => rfl⟩

/-- The fixed delimiter `"\n---\n"` between the sources JSON and text. -/
def DELIM : List Char := ['\n', '-', '-', '-', '\n']

/-- The in-band marker `"\n\n[STREAM_ERROR]\n"`. -/
def STREAM_ERROR_MARKER : List Char :=
  ['\n', '\n', '[', 'S', 'T', 'R', 'E', 'A', 'M', '_', 'E', 'R', 'R', 'O', 'R',
   ']', '\n']

/-- Embeds `customStream` (route.ts lines 302–374) as the list of enqueued
byte chunks: the sources JSON plus delimiter first, then either the
provider's chunks or the error marker. -/
def customStream (serialize : List SourceEntry → List Char)
    (sources : List SourceEntry) (gen : Option (List (List Char))) :
    List (List Char) :=
  (serialize sources ++ DELIM) ::
    (match gen with
    | some chunks => chunks
    | none => [STREAM_ERROR_MARKER])

theorem zip_map_self {α β : Type} (f : α → β) :
    ∀ (l : List α), ∀ p ∈ (l.map f).zip l, p.1 = f p.2 := by
  intro l
  induction l with
  | nil => simp
  | cons a as ih =>
    intro p hp
    rw [List.map_cons, List.zip_cons_cons] at hp
    rcases List.mem_cons.mp hp with hp | hp
    · subst hp; rfl
    · exact ih p hp

set_option maxRecDepth 4000 in
/-- C9 counterexample: a fragment whose content has 201 characters yields an
excerpt of 203 characters (200 content characters plus the three-character
ellipsis), so the excerpt is not capped at 200 characters. -/
theorem C9_excerpt_cap_counterexample :
    (mkSources [⟨1, List.replicate 201 'a', 1, 0⟩]).map (·.excerpt.length)
      = [203] := by
  decide

/-- C9 amended: the first enqueued stream chunk is exactly the serialized
sources object followed by the `"\n---\n"` delimiter, and it is a prefix of
the whole byte stream (before any generated text); every source entry's
similarity is the chunk's similarity rounded to 4 decimals (an integer
multiple of 1/10000), and its excerpt is the chunk content when at most 200
characters, else the first 200 characters plus an ellipsis — at most 203
characters in total. -/
theorem C9_stream_metadata_and_source_shape
    (serialize : List SourceEntry → List Char) (chunks : List Chunk)
    (gen : Option (List (List Char))) :
    (customStream serialize (mkSources chunks) gen).head?
        = some (serialize (mkSources chunks) ++ DELIM)
    ∧ (serialize (mkSources chunks) ++ DELIM)
        <+: (customStream serialize (mkSources chunks) gen).flatten
    ∧ (mkSources chunks).length = chunks.length
    ∧ ∀ p ∈ (mkSources chunks).zip chunks,
        p.1.page = p.2.page_number
        ∧ p.1.similarity = round4 p.2.similarity
        ∧ (∃ n : ℤ, p.1.similarity = (n : ℚ) / 10000)
        ∧ p.1.excerpt = (if 200 < p.2.content.length
            then p.2.content.take 200 ++ ['.', '.', '.'] else p.2.content)
        ∧ p.1.excerpt.length ≤ 203 := by
  refine ⟨rfl, ⟨_, rfl⟩, by simp [mkSources], ?_⟩
  intro p hp
  have hzip := zip_map_self mkSource chunks p hp
  obtain ⟨s, c⟩ := p
  simp only at hzip
  subst hzip
  refine ⟨rfl, rfl, ⟨⌊c.similarity * 10000 + 1 / 2⌋, rfl⟩, rfl, ?_⟩
  show (mkSource c).excerpt.length ≤ 203
  rw [mkSource]
  by_cases hlen : 200 < c.content.length
  · simp only [if_pos hlen, List.length_append, List.length_take,
      List.length_cons, List.length_nil]
    omega
  · simp only [if_neg hlen]
    omega

/-! ## Context budgeter — `src/lib/buildSystemPrompt.ts` (`buildSystemPrompt`)

Unicode NFKC normalization (`String.prototype.normalize`) is an external
builtin, modelled as a parameter `nfkc`.  The claims concern the char-based
branch (no `tokenCounter` supplied), embedded below. -/

/-- The answering personas (`Role`). -/
inductive Role
  | strict_qa
  | advocate
  | concise_hr
  | interview_coach
  | technical_explainer
  | friend
  | storyteller
  deriving Repr, DecidableEq

/-- A fragment passed to `buildSystemPrompt` (`Chunk` of that module). -/
structure PromptChunk where
  page_number : Int
  content : List Char
  id : Option Nat
  similarity : Option ℚ
  docId : Option Nat
  deriving Repr, DecidableEq

/-- The control classes removed by `safeNormalize`:
`[\u0000-\u0008\u000B\u000C\u000E-\u001F\u007F-\u009F]`. -/
def isCtrlExt (c : Char) : Bool :=
  isCtrlRemoved c || (0x7F ≤ c.toNat && c.toNat ≤ 0x9F)

/-- `replace(/[ \t]+/g, " ")`: collapse horizontal whitespace runs. -/
def collapseSpaceTabAux (insideRun : Bool) : List Char → List Char
  | [] => []
  | c :: rest =>
    if c = ' ' || c = '\t' then
      if insideRun then collapseSpaceTabAux true rest
      else ' ' :: collapseSpaceTabAux true rest
    else c :: collapseSpaceTabAux false rest

/-- `replace(/\n{3,}/g, "\n\n")`: `k` counts the newlines of the current
run already emitted; beyond the second they are dropped. -/
def squeezeNLAux (k : Nat) : List Char → List Char
  | [] => []
  | c :: rest =>
    if c = '\n' then
      if 2 ≤ k then squeezeNLAux (k + 1) rest
      else '\n' :: squeezeNLAux (k + 1) rest
    else c :: squeezeNLAux 0 rest

/-- Embeds `safeNormalize`: NFKC, strip extended control characters,
collapse space/tab runs, squeeze 3+ newlines to 2, trim. -/
def safeNormalize (nfkc : List Char → List Char) (s : List Char) : List Char :=
  jsTrim (squeezeNLAux 0 (collapseSpaceTabAux false
    ((nfkc s).filter (fun c => !isCtrlExt c))))

/-- Embeds `truncateChars` of `buildSystemPrompt.ts`: cut to
`max(0, maxChars - 3)`, trim the end, append an ellipsis. -/
def truncateChars (s : List Char) (maxChars : Nat) : List Char :=
  if s.length ≤ maxChars then s
  else jsTrimEnd (s.take (maxChars - 3)) ++ ['.', '.', '.']

/-- `Nat.toDigits`-based rendering of an integer, for the page header. -/
def intChars (i : Int) : List Char :=
  if i < 0 then '-' :: Nat.toDigits 10 i.natAbs else Nat.toDigits 10 i.natAbs

/-- The fragment header: `"[Page N | id:I] "` or `"[Page N] "`. -/
def chunkHeader (ch : PromptChunk) : List Char :=
  match ch.id with
  | some i =>
    ['[', 'P', 'a', 'g', 'e', ' '] ++ intChars ch.page_number
      ++ [' ', '|', ' ', 'i', 'd', ':'] ++ Nat.toDigits 10 i ++ [']', ' ']
  | none =>
    ['[', 'P', 'a', 'g', 'e', ' '] ++ intChars ch.page_number ++ [']', ' ']

/-- Sort key: missing similarity is pushed to the end (`-Infinity`). -/
def simKey (c : PromptChunk) : WithBot ℚ :=
  match c.similarity with
  | some q => (q : WithBot ℚ)
  | none => ⊥

/-- The optional stable descending sort by similarity. -/
def sortPromptChunks (l : List PromptChunk) : List PromptChunk :=
  l.mergeSort (fun a b => decide (simKey b ≤ simKey a))

/-- Steps 1–3 of `buildSystemPrompt`: optional sort, normalization,
per-fragment truncation. -/
def safeChunksOf (nfkc : List Char → List Char) (chunks : List PromptChunk)
    (perChunkChars : Nat) (sortChunks assumeSorted : Bool) : List PromptChunk :=
  let working := if sortChunks && !assumeSorted then sortPromptChunks chunks
    else chunks
  working.map (fun c =>
    { c with content := truncateChars (safeNormalize nfkc c.content) perChunkChars })

/-- The char-based assembly loop (step 4, no token counter): grow the
context while it fits; if even the first fragment overflows, include a
forcibly truncated version of it; stop at the first overflow. -/
def assembleGo (maxContextChars : Nat) (context : List Char) :
    List PromptChunk → List Char
  | [] => context
  | ch :: rest =>
    let hdr := chunkHeader ch
    let candidate :=
      if context = [] then hdr ++ ch.content
      else context ++ '\n' :: '\n' :: (hdr ++ ch.content)
    if maxContextChars < candidate.length then
      if context = [] then
        hdr ++ truncateChars ch.content (max 8 (maxContextChars - hdr.length - 5))
      else context
    else assembleGo maxContextChars candidate rest

/-- The context block assembled by `buildSystemPrompt` in its char-based
branch (the `role` argument only selects instruction text around the
block and does not influence it). -/
def buildContextBlock (nfkc : List Char → List Char) (chunks : List PromptChunk)
    (_role : Role) (maxContextChars perChunkChars : Nat)
    (sortChunks assumeSorted : Bool) : List Char :=
  assembleGo maxContextChars []
    (safeChunksOf nfkc chunks perChunkChars sortChunks assumeSorted)

/-- The fold the loop computes when everything fits: blocks joined by
blank lines. -/
def renderBlocks (chs : List PromptChunk) : List Char :=
  chs.foldl (fun ctx ch =>
    if ctx = [] then chunkHeader ch ++ ch.content
    else ctx ++ '\n' :: '\n' :: (chunkHeader ch ++ ch.content)) []

theorem chunkHeader_ne_nil (ch : PromptChunk) : chunkHeader ch ≠ [] := by
  unfold chunkHeader
  cases ch.id <;> simp

theorem header_append_ne_nil (ch : PromptChunk) (x : List Char) :
    chunkHeader ch ++ x ≠ [] :=
  fun h => chunkHeader_ne_nil ch (List.append_eq_nil.mp h).1

theorem renderBlocks_snoc (l : List PromptChunk) (ch : PromptChunk) :
    renderBlocks (l ++ [ch])
      = (if renderBlocks l = [] then chunkHeader ch ++ ch.content
        else renderBlocks l ++ '\n' :: '\n' :: (chunkHeader ch ++ ch.content)) := by
  simp [renderBlocks, List.foldl_append]

theorem foldl_renderStep_ne_nil :
    ∀ (l : List PromptChunk) (ctx : List Char), ctx ≠ [] →
      l.foldl (fun ctx ch =>
        if ctx = [] then chunkHeader ch ++ ch.content
        else ctx ++ '\n' :: '\n' :: (chunkHeader ch ++ ch.content)) ctx ≠ [] := by
  intro l
  induction l with
  | nil => intro ctx h; simpa using h
  | cons ch rest ih =>
    intro ctx h
    simp only [List.foldl_cons, if_neg h]
    exact ih _ (by simp)

theorem renderBlocks_ne_nil {chs : List PromptChunk} (h : chs ≠ []) :
    renderBlocks chs ≠ [] := by
  obtain ⟨ch, rest, rfl⟩ := List.exists_cons_of_ne_nil h
  show List.foldl _ _ (ch :: rest) ≠ []
  simp only [List.foldl_cons, if_pos rfl]
  rcases rest with _ | ⟨d, ds⟩
  · exact header_append_ne_nil ch ch.content
  · exact foldl_renderStep_ne_nil (d :: ds) _ (header_append_ne_nil ch ch.content)

/-- The loop, started on a non-empty in-budget context, extends it with a
greedy prefix of the remaining fragments: the result still fits, and either
everything was consumed or the next fragment would overflow. -/
theorem assembleGo_greedy (maxC : Nat) :
    ∀ (rest pfx : List PromptChunk), pfx ≠ [] →
      (renderBlocks pfx).length ≤ maxC →
      ∃ k, assembleGo maxC (renderBlocks pfx) rest
            = renderBlocks (pfx ++ rest.take k)
        ∧ (renderBlocks (pfx ++ rest.take k)).length ≤ maxC
        ∧ (k = rest.length
           ∨ maxC < (renderBlocks (pfx ++ rest.take (k + 1))).length) := by
  intro rest
  induction rest with
  | nil =>
    intro pfx _ hfit
    exact ⟨0, by simp [assembleGo], by simpa using hfit, Or.inl rfl⟩
  | cons ch rest' ih =>
    intro pfx hpfx hfit
    have hctx : renderBlocks pfx ≠ [] := renderBlocks_ne_nil hpfx
    have hcand :
        (if renderBlocks pfx = [] then chunkHeader ch ++ ch.content
          else renderBlocks pfx ++ '\n' :: '\n' :: (chunkHeader ch ++ ch.content))
          = renderBlocks (pfx ++ [ch]) := (renderBlocks_snoc pfx ch).symm
    simp only [assembleGo, if_neg hctx] at hcand ⊢
    rw [hcand]
    by_cases hover : maxC < (renderBlocks (pfx ++ [ch])).length
    · rw [if_pos hover]
      refine ⟨0, by simp, by simpa using hfit, Or.inr ?_⟩
      simpa using hover
    · rw [if_neg hover]
      obtain ⟨k', hk'eq, hk'fit, hk'stop⟩ :=
        ih (pfx ++ [ch]) (by simp) (Nat.le_of_not_lt hover)
      refine ⟨k' + 1, ?_, ?_, ?_⟩
      · rw [hk'eq]
        simp [List.append_assoc]
      · rw [List.append_assoc] at hk'fit
        simpa using hk'fit
      · rcases hk'stop with h | h
        · exact Or.inl (by simp [h])
        · refine Or.inr ?_
          rw [List.append_assoc] at h
          simpa using h

theorem assembleGo_nil_cons (maxC : Nat) (ch : PromptChunk)
    (rest : List PromptChunk) :
    assembleGo maxC [] (ch :: rest)
      = if maxC < (chunkHeader ch ++ ch.content).length then
          chunkHeader ch
            ++ truncateChars ch.content (max 8 (maxC - (chunkHeader ch).length - 5))
        else assembleGo maxC (chunkHeader ch ++ ch.content) rest := by
  simp [assembleGo]

/-- C3: for every non-empty fragment list, role, and character budget (no
token counter), the assembled context block is never empty; when even the
first ranked fragment's header plus content overflows the budget, the block
is exactly that fragment forcibly truncated; otherwise the block is a
greedy prefix of the ranked fragments, its length never exceeds the budget,
and either all fragments were added or the next one would overflow. -/
theorem C3_context_budget (nfkc : List Char → List Char)
    (chunks : List PromptChunk) (role : Role) (maxC perChunk : Nat)
    (sortC assumeS : Bool) (hne : chunks ≠ []) :
    buildContextBlock nfkc chunks role maxC perChunk sortC assumeS ≠ []
    ∧ ∀ first rest',
        safeChunksOf nfkc chunks perChunk sortC assumeS = first :: rest' →
        (maxC < (chunkHeader first ++ first.content).length →
          buildContextBlock nfkc chunks role maxC perChunk sortC assumeS
            = chunkHeader first
              ++ truncateChars first.content
                  (max 8 (maxC - (chunkHeader first).length - 5)))
        ∧ ((chunkHeader first ++ first.content).length ≤ maxC →
          (buildContextBlock nfkc chunks role maxC perChunk sortC assumeS).length
              ≤ maxC
          ∧ ∃ k, 1 ≤ k
              ∧ buildContextBlock nfkc chunks role maxC perChunk sortC assumeS
                  = renderBlocks ((first :: rest').take k)
              ∧ (k = (first :: rest').length
                 ∨ maxC
                    < (renderBlocks ((first :: rest').take (k + 1))).length)) := by
  have hslen : (safeChunksOf nfkc chunks perChunk sortC assumeS).length
      = chunks.length := by
    unfold safeChunksOf sortPromptChunks
    by_cases hs : (sortC && !assumeS) = true <;> simp [hs]
  have hsne : safeChunksOf nfkc chunks perChunk sortC assumeS ≠ [] := by
    intro h
    apply hne
    have := hslen
    rw [h] at this
    exact List.length_eq_zero.mp this.symm
  obtain ⟨first, rest', hS⟩ :=
    List.exists_cons_of_ne_nil hsne
  have hkey : ∀ P : List Char → Prop,
      (maxC < (chunkHeader first ++ first.content).length →
        P (chunkHeader first ++ truncateChars first.content
            (max 8 (maxC - (chunkHeader first).length - 5)))) →
      ((chunkHeader first ++ first.content).length ≤ maxC →
        P (assembleGo maxC (renderBlocks [first]) rest')) →
      P (buildContextBlock nfkc chunks role maxC perChunk sortC assumeS) := by
    intro P hbig hfits
    unfold buildContextBlock
    rw [hS, assembleGo_nil_cons]
    by_cases hover : maxC < (chunkHeader first ++ first.content).length
    · rw [if_pos hover]
      exact hbig hover
    · rw [if_neg hover]
      have : renderBlocks [first] = chunkHeader first ++ first.content := by
        simp [renderBlocks]
      rw [← this]
      exact hfits (Nat.le_of_not_lt hover)
  constructor
  · refine hkey (· ≠ []) (fun _ => header_append_ne_nil first _) ?_
    intro hfit
    obtain ⟨k, hkeq, _, _⟩ := assembleGo_greedy maxC rest' [first] (by simp)
      (by simpa [renderBlocks] using hfit)
    rw [hkeq]
    exact renderBlocks_ne_nil (by simp)
  · intro f r hfr
    rw [hS] at hfr
    injection hfr with h1 h2
    subst h1
    subst h2
    refine ⟨?_, ?_⟩
    · intro hover
      refine hkey (· = _) (fun _ => rfl) ?_
      intro hfit
      exact absurd hfit (Nat.not_le.mpr hover)
    · intro hfit
      have hgreedy := assembleGo_greedy maxC rest' [first] (by simp)
        (by simpa [renderBlocks] using hfit)
      obtain ⟨k, hkeq, hkfit, hkstop⟩ := hgreedy
      have hmain : buildContextBlock nfkc chunks role maxC perChunk sortC assumeS
          = renderBlocks ([first] ++ rest'.take k) := by
        refine hkey (· = renderBlocks ([first] ++ rest'.take k))
          (fun h => absurd hfit (Nat.not_le.mpr h)) (fun _ => hkeq)
      refine ⟨?_, k + 1, Nat.le_add_left 1 k, ?_, ?_⟩
      · rw [hmain]
        exact hkfit
      · rw [hmain]
        simp [List.take_succ_cons]
      · rcases hkstop with h | h
        · exact Or.inl (by simp [h])
        · refine Or.inr ?_
          rw [List.take_succ_cons]
          simpa using h

/-- Witness for C3 at a concrete input: a single short fragment under a
budget of 100 characters. -/
theorem C3_context_budget_witness :
    ([⟨1, ['h', 'i'], none, none, none⟩] : List PromptChunk) ≠ []
    ∧ (buildContextBlock (fun s => s) [⟨1, ['h', 'i'], none, none, none⟩]
          Role.strict_qa 100 2000 true false ≠ []
      ∧ ∀ first rest',
          safeChunksOf (fun s => s) [⟨1, ['h', 'i'], none, none, none⟩]
              2000 true false = first :: rest' →
          (100 < (chunkHeader first ++ first.content).length →
            buildContextBlock (fun s => s) [⟨1, ['h', 'i'], none, none, none⟩]
                Role.strict_qa 100 2000 true false
              = chunkHeader first
                ++ truncateChars first.content
                    (max 8 (100 - (chunkHeader first).length - 5)))
          ∧ ((chunkHeader first ++ first.content).length ≤ 100 →
            (buildContextBlock (fun s => s) [⟨1, ['h', 'i'], none, none, none⟩]
                Role.strict_qa 100 2000 true false).length ≤ 100
            ∧ ∃ k, 1 ≤ k
                ∧ buildContextBlock (fun s => s)
                      [⟨1, ['h', 'i'], none, none, none⟩]
                      Role.strict_qa 100 2000 true false
                    = renderBlocks ((first :: rest').take k)
                ∧ (k = (first :: rest').length
                   ∨ 100 < (renderBlocks ((first :: rest').take (k + 1))).length))) :=
  ⟨by decide, C3_context_budget (fun s => s) [⟨1, ['h', 'i'], none, none, none⟩]
      Role.strict_qa 100 2000 true false (by decide)⟩

/-! ## Batch embedding client — `src/lib/pdf/saveEmbeddings.ts`
(`createHuggingFaceEmbeddings`)

`embedBatch` (the per-group inference call with retry and shape
normalization) is an external call, modelled by a deterministic oracle
returning either an error or one wire vector per requested text.
`Math.sqrt` is an external builtin, modelled as a parameter.  The
concurrent writes into the pre-allocated `outputs` array are modelled as a
list of `(globalIndex, item)` writes applied to an index-keyed map, so the
effect of any completion order is expressible. -/

/-- An element of a wire vector: a JS number or something else
(the `typeof v !== "number"` check). -/
inductive JVal
  | num (q : ℚ)
  | other
  deriving Repr, DecidableEq

/-- An output item (`EmbeddingItem`). -/
structure EmbeddingItem where
  content : List Char
  embedding : List ℚ
  deriving Repr, DecidableEq

/-- Extract the numbers of a wire vector; `none` when any element is not a
number (`emb.some(v => typeof v !== "number")`). -/
def vecNums : List JVal → Option (List ℚ)
  | [] => some []
  | JVal.num q :: rest => (vecNums rest).map (q :: ·)
  | JVal.other :: _ => none

/-- Embeds `l2Normalize` (with `Math.sqrt` as a parameter; the
`!isFinite(norm)` guard is vacuous over ℚ). -/
def l2Normalize (sqrt : ℚ → ℚ) (vec : List ℚ) : List ℚ :=
  let norm := sqrt (vec.foldl (fun s v => s + v * v) 0)
  if norm = 0 then vec else vec.map (· / norm)

/-- The batching loop: `batches.push({ start: i, inputs: chunks.slice(i,
i + batchSize) })`.  A zero batch size would not terminate in the source
either and is mapped to no batches. -/
def mkBatches (batchSize : Nat) : Nat → List (List Char) → List (Nat × List (List Char))
  | _, [] => []
  | i, x :: xs =>
    if _h : batchSize = 0 then []
    else (i, (x :: xs).take batchSize)
      :: mkBatches batchSize (i + batchSize) ((x :: xs).drop batchSize)
termination_by _ l => l.length
decreasing_by
  simp only [List.length_drop, List.length_cons]
  omega

/-- The per-vector conversion and writes of one group: global index
`start + j`, item `{ content, embedding }`; `none` when some vector has a
non-numeric element. -/
def writesOf (sqrt : ℚ → ℚ) (normalize : Bool) :
    Nat → List (List Char) → List (List JVal) →
      Option (List (Nat × EmbeddingItem))
  | _, [], _ => some []
  | _, _ :: _, [] => none
  | i, t :: ts, v :: vs =>
    match vecNums v with
    | none => none
    | some nums =>
      (writesOf sqrt normalize (i + 1) ts vs).map
        ((i, ⟨t, if normalize then l2Normalize sqrt nums else nums⟩) :: ·)

/-- Process all groups (the source runs them in bounded-concurrency
waves of `Promise.all`; any group failure rejects the whole operation):
collect each group's writes, failing on oracle error, response-count
mismatch, or an invalid vector. -/
def collectWrites (oracle : List (List Char) → Except (List Char) (List (List JVal)))
    (sqrt : ℚ → ℚ) (normalize : Bool) :
    List (Nat × List (List Char)) →
      Except (List Char) (List (Nat × EmbeddingItem))
  | [] => Except.ok []
  | b :: bs =>
    if b.2 = [] then collectWrites oracle sqrt normalize bs
    else
      match oracle b.2 with
      | Except.error e => Except.error e
      | Except.ok vecs =>
        if vecs.length ≠ b.2.length then Except.error ['c', 'n', 't']
        else
          match writesOf sqrt normalize b.1 b.2 vecs with
          | none => Except.error ['v', 'e', 'c']
          | some ws =>
            (collectWrites oracle sqrt normalize bs).map (ws ++ ·)

/-- Apply index-keyed writes to the `outputs` array (a map
`Nat → Option EmbeddingItem` initialised to all-`null`). -/
def applyWrites (ws : List (Nat × EmbeddingItem))
    (outputs : Nat → Option EmbeddingItem) : Nat → Option EmbeddingItem :=
  ws.foldl (fun f w => Function.update f w.1 (some w.2)) outputs

/-- Embeds `createHuggingFaceEmbeddings`: batch, process groups, fill the
outputs array by global index, convert to the final list (the defensive
`Missing embedding` check). -/
def createHuggingFaceEmbeddings
    (oracle : List (List Char) → Except (List Char) (List (List JVal)))
    (sqrt : ℚ → ℚ) (chunks : List (List Char)) (batchSize : Nat)
    (normalize : Bool) : Except (List Char) (List EmbeddingItem) :=
  if chunks = [] then Except.ok []
  else
    match collectWrites oracle sqrt normalize (mkBatches batchSize 0 chunks) with
    | Except.error e => Except.error e
    | Except.ok ws =>
      let outputs := applyWrites ws (fun _ => none)
      match (List.range chunks.length).mapM outputs with
      | none => Except.error ['m', 'i', 's', 's']
      | some items => Except.ok items

theorem writesOf_spec (sqrt : ℚ → ℚ) (normalize : Bool) :
    ∀ (ts : List (List Char)) (vs : List (List JVal)) (i : Nat)
      (ws : List (Nat × EmbeddingItem)),
      writesOf sqrt normalize i ts vs = some ws →
      ws.map Prod.fst = List.range' i ts.length
      ∧ ws.map (fun w => w.2.content) = ts := by
  intro ts
  induction ts with
  | nil =>
    intro vs i ws h
    simp only [writesOf, Option.some.injEq] at h
    subst h
    simp
  | cons t ts ih =>
    intro vs i ws h
    match vs with
    | [] => simp [writesOf] at h
    | v :: vs =>
      simp only [writesOf] at h
      rcases hv : vecNums v with _ | nums
      · rw [hv] at h; simp at h
      · rw [hv] at h
        simp only [Option.map_eq_some'] at h
        obtain ⟨ws', hws', rfl⟩ := h
        obtain ⟨h1, h2⟩ := ih vs (i + 1) ws' hws'
        constructor
        · simp only [List.map_cons, h1, List.length_cons]
          rw [List.range'_succ]
        · simp [h2]

theorem writesOf_none_of_bad (sqrt : ℚ → ℚ) (normalize : Bool) :
    ∀ (ts : List (List Char)) (vs : List (List JVal)) (i : Nat),
      vs.length = ts.length → (∃ v ∈ vs, vecNums v = none) →
      writesOf sqrt normalize i ts vs = none := by
  intro ts
  induction ts with
  | nil =>
    intro vs i hlen hbad
    obtain ⟨v, hv, _⟩ := hbad
    rw [List.length_nil, List.length_eq_zero] at hlen
    subst hlen
    cases hv
  | cons t ts ih =>
    intro vs i hlen hbad
    match vs with
    | [] => obtain ⟨v, hv, _⟩ := hbad; cases hv
    | v :: vs =>
      obtain ⟨v', hv', hbad'⟩ := hbad
      simp only [writesOf]
      rcases List.mem_cons.mp hv' with hv' | hv'
      · subst hv'
        rw [hbad']
      · rcases hv : vecNums v with _ | nums
        · rfl
        · rw [ih vs (i + 1) (by simpa using hlen) ⟨v', hv', hbad'⟩]
          rfl

theorem mkBatches_snd_ne_nil (bs : Nat) :
    ∀ (i : Nat) (l : List (List Char)), ∀ b ∈ mkBatches bs i l, b.2 ≠ [] := by
  intro i l
  induction i, l using mkBatches.induct bs with
  | case1 i => simp [mkBatches]
  | case2 i x xs h => simp [mkBatches, h]
  | case3 i x xs h ih =>
    rw [mkBatches]
    simp only [dif_neg h]
    intro b hb
    rcases List.mem_cons.mp hb with hb | hb
    · subst hb
      cases bs with
      | zero => exact absurd rfl h
      | succ n => simp
    · exact ih b hb

theorem except_map_eq_ok {f : List (Nat × EmbeddingItem) → List (Nat × EmbeddingItem)}
    {x : Except (List Char) (List (Nat × EmbeddingItem))}
    {w : List (Nat × EmbeddingItem)} (h : x.map f = Except.ok w) :
    ∃ y, x = Except.ok y ∧ w = f y := by
  cases x with
  | error e => simp [Except.map] at h
  | ok y =>
    refine ⟨y, rfl, ?_⟩
    simpa [Except.map] using h.symm

/-- Collected writes of the whole batched run: keys are exactly the global
indices in ascending order and values carry the input texts in order. -/
theorem collect_range (oracle : List (List Char) → Except (List Char) (List (List JVal)))
    (sqrt : ℚ → ℚ) (normalize : Bool) (bs : Nat) (hbs : bs ≠ 0) :
    ∀ (i : Nat) (l : List (List Char)) (ws : List (Nat × EmbeddingItem)),
      collectWrites oracle sqrt normalize (mkBatches bs i l) = Except.ok ws →
      ws.map Prod.fst = List.range' i l.length
      ∧ ws.map (fun w => w.2.content) = l := by
  intro i l
  induction i, l using mkBatches.induct bs with
  | case1 i =>
    intro ws h
    rw [mkBatches] at h
    simp only [collectWrites, Except.ok.injEq] at h
    subst h
    simp
  | case2 i x xs h =>
    exact absurd h hbs
  | case3 i x xs h ih =>
    intro ws hc
    rw [mkBatches] at hc
    simp only [dif_neg h] at hc
    have hne : ((x :: xs).take bs) ≠ [] := by
      cases bs with
      | zero => exact absurd rfl h
      | succ n => simp
    rw [collectWrites] at hc
    dsimp only at hc
    rw [if_neg hne] at hc
    rcases horacle : oracle ((x :: xs).take bs) with e | vecs
    · rw [horacle] at hc
      dsimp only at hc
      cases hc
    · rw [horacle] at hc
      dsimp only at hc
      by_cases hcnt : vecs.length ≠ ((x :: xs).take bs).length
      · rw [if_pos hcnt] at hc
        cases hc
      · rw [if_neg hcnt] at hc
        rcases hw : writesOf sqrt normalize i ((x :: xs).take bs) vecs with _ | ws₁
        · rw [hw] at hc
          dsimp only at hc
          cases hc
        · rw [hw] at hc
          dsimp only at hc
          obtain ⟨ws₂, hws₂, rfl⟩ := except_map_eq_ok hc
          obtain ⟨hk₁, hv₁⟩ := writesOf_spec sqrt normalize _ _ _ _ hw
          obtain ⟨hk₂, hv₂⟩ := ih ws₂ hws₂
          constructor
          · rw [List.map_append, hk₁, hk₂]
            rw [List.length_take, List.length_drop]
            rcases Nat.le_total bs (x :: xs).length with hle | hle
            · rw [Nat.min_eq_left hle]
              have := List.range'_append_1 i bs ((x :: xs).length - bs)
              rw [this]
              congr 1
              omega
            · rw [Nat.min_eq_right hle]
              have hdrop : (x :: xs).length - bs = 0 := by omega
              rw [hdrop]
              simp
          · rw [List.map_append, hv₁, hv₂]
            exact List.take_append_drop bs (x :: xs)

theorem applyWrites_not_mem :
    ∀ (ws : List (Nat × EmbeddingItem)) (init : Nat → Option EmbeddingItem)
      (j : Nat), j ∉ ws.map Prod.fst → applyWrites ws init j = init j := by
  intro ws
  induction ws with
  | nil => intro init j _; rfl
  | cons w ws ih =>
    intro init j hj
    simp only [List.map_cons, List.mem_cons, not_or] at hj
    show applyWrites ws (Function.update init w.1 (some w.2)) j = init j
    rw [ih _ j hj.2, Function.update_noteq hj.1]

theorem applyWrites_mem :
    ∀ (ws : List (Nat × EmbeddingItem)) (init : Nat → Option EmbeddingItem)
      (j : Nat) (it : EmbeddingItem),
      (ws.map Prod.fst).Nodup → (j, it) ∈ ws →
      applyWrites ws init j = some it := by
  intro ws
  induction ws with
  | nil => intro _ _ _ _ hm; cases hm
  | cons w ws ih =>
    intro init j it hnd hm
    have hnd' := hnd
    rw [List.map_cons, List.nodup_cons] at hnd'
    rcases List.mem_cons.mp hm with hm | hm
    · subst hm
      show applyWrites ws (Function.update init j (some it)) j = some it
      rw [applyWrites_not_mem ws _ j (by simpa using hnd'.1),
        Function.update_same]
    · exact ih _ j it hnd'.2 hm

/-- When the write keys are exactly `range' i ws.length` in order, reading
the filled array back over that range recovers the written items in
order. -/
theorem mapM_applyWrites :
    ∀ (ws : List (Nat × EmbeddingItem)) (i : Nat)
      (init : Nat → Option EmbeddingItem),
      ws.map Prod.fst = List.range' i ws.length →
      (List.range' i ws.length).mapM (applyWrites ws init)
        = some (ws.map (·.2)) := by
  intro ws
  induction ws with
  | nil => intro i init _; rfl
  | cons w ws ih =>
    intro i init hkeys
    rw [List.length_cons, List.range'_succ] at hkeys ⊢
    rw [List.map_cons] at hkeys
    injection hkeys with h1 h2
    have hfun : applyWrites (w :: ws) init
        = applyWrites ws (Function.update init w.1 (some w.2)) := rfl
    have hw : applyWrites ws (Function.update init w.1 (some w.2)) i
        = some w.2 := by
      rw [applyWrites_not_mem ws _ i ?_]
      · rw [← h1, Function.update_same]
      · rw [h2]
        intro hmem
        have := List.mem_range'_1.mp hmem
        omega
    have hrest := ih (i + 1) (Function.update init w.1 (some w.2)) h2
    rw [List.mapM_cons, hfun, hw, hrest]
    simp

/-- A bad group (response count mismatch, or an invalid vector with counts
matching) anywhere in the batch list makes the whole collection fail. -/
theorem collect_err (oracle : List (List Char) → Except (List Char) (List (List JVal)))
    (sqrt : ℚ → ℚ) (normalize : Bool) :
    ∀ (bsl : List (Nat × List (List Char))),
      (∃ b ∈ bsl, b.2 ≠ [] ∧ ∃ vecs, oracle b.2 = Except.ok vecs ∧
        (vecs.length ≠ b.2.length ∨ ∃ v ∈ vecs, vecNums v = none)) →
      ∃ e, collectWrites oracle sqrt normalize bsl = Except.error e := by
  intro bsl
  induction bsl with
  | nil => rintro ⟨b, hb, _⟩; cases hb
  | cons b bs ih =>
    rintro ⟨b', hb', hne', vecs', hvecs', hbad'⟩
    rw [collectWrites]
    by_cases hbe : b.2 = []
    · rw [if_pos hbe]
      rcases List.mem_cons.mp hb' with hb' | hb'
      · subst hb'; exact absurd hbe hne'
      · exact ih ⟨b', hb', hne', vecs', hvecs', hbad'⟩
    · rw [if_neg hbe]
      rcases horacle : oracle b.2 with e | vecs
      · exact ⟨e, rfl⟩
      · dsimp only
        by_cases hcnt : vecs.length ≠ b.2.length
        · rw [if_pos hcnt]
          exact ⟨_, rfl⟩
        · rw [if_neg hcnt]
          push_neg at hcnt
          rcases List.mem_cons.mp hb' with hb' | hb'
          · subst hb'
            rw [horacle] at hvecs'
            injection hvecs' with hv
            subst hv
            rcases hbad' with hbad' | hbad'
            · exact absurd hbad' (by simpa using hcnt)
            · rw [writesOf_none_of_bad sqrt normalize _ _ _ hcnt hbad']
              exact ⟨_, rfl⟩
          · rcases hw : writesOf sqrt normalize b.1 b.2 vecs with _ | ws₁
            · exact ⟨_, rfl⟩
            · obtain ⟨e, he⟩ := ih ⟨b', hb', hne', vecs', hvecs', hbad'⟩
              rw [he]
              exact ⟨e, rfl⟩

/-- C4: (i) a successful batch embedding returns exactly one item per input
text, whose contents equal the inputs in input order; (ii) the filled
outputs array is invariant under any completion order of the per-group
writes (any permutation of the collected writes yields the same array);
(iii) a group whose (successful) response count differs from its input
count, or which contains a vector with a non-numeric element, fails the
whole operation. -/
theorem C4_batch_embedding_order_and_failure
    (oracle : List (List Char) → Except (List Char) (List (List JVal)))
    (sqrt : ℚ → ℚ) (chunks : List (List Char)) (batchSize : Nat)
    (normalize : Bool) (hbs : batchSize ≠ 0) :
    (∀ out,
      createHuggingFaceEmbeddings oracle sqrt chunks batchSize normalize
        = Except.ok out →
      out.length = chunks.length ∧ out.map (·.content) = chunks)
    ∧ (∀ ws,
      collectWrites oracle sqrt normalize (mkBatches batchSize 0 chunks)
        = Except.ok ws →
      ∀ ws', ws'.Perm ws →
        applyWrites ws' (fun _ => none) = applyWrites ws (fun _ => none))
    ∧ (∀ b ∈ mkBatches batchSize 0 chunks, ∀ vecs,
      oracle b.2 = Except.ok vecs →
      (vecs.length ≠ b.2.length ∨ ∃ v ∈ vecs, vecNums v = none) →
      ∃ e, createHuggingFaceEmbeddings oracle sqrt chunks batchSize normalize
        = Except.error e) := by
  refine ⟨?_, ?_, ?_⟩
  · intro out hout
    by_cases hch : chunks = []
    · subst hch
      rw [createHuggingFaceEmbeddings, if_pos rfl] at hout
      injection hout with h
      subst h
      exact ⟨rfl, rfl⟩
    · rw [createHuggingFaceEmbeddings, if_neg hch] at hout
      rcases hcoll : collectWrites oracle sqrt normalize
          (mkBatches batchSize 0 chunks) with e | ws
      · rw [hcoll] at hout
        cases hout
      · rw [hcoll] at hout
        dsimp only at hout
        obtain ⟨hkeys, hvals⟩ :=
          collect_range oracle sqrt normalize batchSize hbs 0 chunks ws hcoll
        have hnd : (ws.map Prod.fst).Nodup := by
          rw [hkeys]
          exact List.nodup_range' 0 chunks.length
        have hlenws : ws.length = chunks.length := by
          have := congrArg List.length hkeys
          simpa using this
        have hkeys' : ws.map Prod.fst = List.range' 0 ws.length := by
          rw [hkeys, hlenws]
        have hmapM := mapM_applyWrites ws 0 (fun _ => none) hkeys'
        rw [hlenws] at hmapM
        rw [List.range_eq_range', hmapM] at hout
        dsimp only at hout
        injection hout with h
        subst h
        constructor
        · simpa using hlenws
        · rw [List.map_map]
          exact hvals
  · intro ws hcoll ws' hperm
    obtain ⟨hkeys, _⟩ :=
      collect_range oracle sqrt normalize batchSize hbs 0 chunks ws hcoll
    have hnd : (ws.map Prod.fst).Nodup := by
      rw [hkeys]
      exact List.nodup_range' 0 chunks.length
    have hnd' : (ws'.map Prod.fst).Nodup :=
      ((hperm.map Prod.fst).nodup_iff).mpr hnd
    refine hperm.foldl_eq' ?_ _
    intro x hx y hy z
    by_cases hxy : x.1 = y.1
    · have : x = y := List.inj_on_of_nodup_map hnd' hx hy hxy
      subst this
      rfl
    · exact Function.update_comm hxy _ _ _
  · intro b hb vecs hvecs hbad
    have hbne : b.2 ≠ [] := mkBatches_snd_ne_nil batchSize 0 chunks b hb
    have hchne : chunks ≠ [] := by
      intro hc
      subst hc
      rw [mkBatches] at hb
      cases hb
    obtain ⟨e, he⟩ := collect_err oracle sqrt normalize _
      ⟨b, hb, hbne, vecs, hvecs, hbad⟩
    refine ⟨e, ?_⟩
    rw [createHuggingFaceEmbeddings, if_neg hchne, he]

/-- Witness for C4 at a concrete input: one text, one group, a valid
one-dimensional response. -/
theorem C4_batch_embedding_order_and_failure_witness :
    (16 : Nat) ≠ 0
    ∧ createHuggingFaceEmbeddings (fun _ => Except.ok [[JVal.num 1]])
        (fun q => q) [['a', 'b']] 16 false = Except.ok [⟨['a', 'b'], [1]⟩]
    ∧ ([⟨['a', 'b'], [1]⟩] : List EmbeddingItem).length = [['a', 'b']].length
    ∧ ([⟨['a', 'b'], [1]⟩] : List EmbeddingItem).map (·.content)
        = [['a', 'b']] := by
  have hb2 : mkBatches 16 16 ([] : List (List Char)) = [] := by rw [mkBatches]
  have hb : mkBatches 16 0 [['a', 'b']] = [(0, [['a', 'b']])] := by
    rw [mkBatches]
    simp [hb2]
  have heq : createHuggingFaceEmbeddings (fun _ => Except.ok [[JVal.num 1]])
      (fun q => q) [['a', 'b']] 16 false = Except.ok [⟨['a', 'b'], [1]⟩] := by
    rw [createHuggingFaceEmbeddings, hb]
    rfl
  refine ⟨by decide, heq, ?_, ?_⟩
  · exact ((C4_batch_embedding_order_and_failure (fun _ => Except.ok [[JVal.num 1]])
      (fun q => q) [['a', 'b']] 16 false (by decide)).1 _ heq).1
  · exact ((C4_batch_embedding_order_and_failure (fun _ => Except.ok [[JVal.num 1]])
      (fun q => q) [['a', 'b']] 16 false (by decide)).1 _ heq).2

end DocuChat
